import Mathlib

/-!
Verification of the in-memory filesystem core (inode paged byte storage,
file/directory handles, seek cursor).

The Rust sources are embedded shallowly:

* `src/inode.rs` — `Inode` with 256 direct page slots (`single`) and 256
  indirect blocks of 256 slots each (`double`).  Slot arrays are embedded as
  total functions `Nat → Option _`; only indices below `LIST_SIZE` are ever
  used, exactly as the source only indexes within the fixed arrays.  A `Page`
  is embedded as a total function `Nat → Nat`; only indices below `PAGE_SIZE`
  are observable through `byteAt`/`Inode.read`.  Machine bytes (`u8`) are
  embedded as `Nat`: the source only copies bytes verbatim, never computes on
  them, so no wrap-around arithmetic arises.
* `time::get_time()` is ambient input; it is embedded as an explicit `now`
  argument to `Inode.new` and `Inode.write`.
* Rust panics (`get_or_alloc_page` / `get_page` / read of an absent page) are
  embedded as an error result that carries the memory state reached at the
  moment of the panic: `Inode.write` returns `Inode × Option Nat` where the
  second component is `some written` on success and `none` on panic, and
  `Inode.read` (which never mutates the inode) returns `none` on panic.
* The `for i in 0..blocks_to_act_on` loops of `write`/`read` are embedded as
  structural recursion over `rem` = number of loop iterations still to run
  (`rem` starts at `blocks_to_act_on` and `i` at `0`; the loop body is a
  verbatim translation).
-/

/-- `PAGE_SIZE` from `inode.rs`: a page is 4096 bytes. -/
def PAGE_SIZE : Nat := 4096

/-- `LIST_SIZE` from `inode.rs`: 256 slots per pointer list. -/
def LIST_SIZE : Nat := 256

/-- Largest addressable page count: `LIST_SIZE + LIST_SIZE * LIST_SIZE`
(the bound checked by `get_or_alloc_page` and `get_page`). -/
def MAX_PAGES : Nat := LIST_SIZE + LIST_SIZE * LIST_SIZE

/-- Maximum file size in bytes, `MAX_PAGES * PAGE_SIZE` = `65792 * 4096` =
`269484032`.  (Note: this differs from the round number quoted in prose
descriptions; `(256 + 256*256) * 4096` is `269484032`.) -/
def MAX_FILE_SIZE : Nat := MAX_PAGES * PAGE_SIZE

/-- `ceil_div` from `inode.rs`: ceiling of an integer division. -/
def ceil_div (x y : Nat) : Nat := (x + y - 1) / y

/-- `time::Timespec`: seconds and nanoseconds. -/
structure Timespec where
  sec : Int
  nsec : Int
deriving DecidableEq

/-- Ordering on `Timespec` values (lexicographic seconds, then nanoseconds). -/
def Timespec.le (a b : Timespec) : Prop :=
  a.sec < b.sec ∨ (a.sec = b.sec ∧ a.nsec ≤ b.nsec)

instance (a b : Timespec) : Decidable (Timespec.le a b) :=
  inferInstanceAs (Decidable (a.sec < b.sec ∨ (a.sec = b.sec ∧ a.nsec ≤ b.nsec)))

/-- A 4096-byte page (`type Page = Box<[u8; PAGE_SIZE]>`), embedded as a
total function; only indices `< PAGE_SIZE` are observable. -/
abbrev Page := Nat → Nat

/-- The all-zero page produced by `Box::new([0u8; PAGE_SIZE])`. -/
def zeroPage : Page := fun _ => 0

/-- `Inode` from `inode.rs`: direct slots, indirect slots, logical size and
the three timestamps. -/
structure Inode where
  single : Nat → Option Page
  double : Nat → Option (Nat → Option Page)
  size : Nat
  mod_time : Timespec
  access_time : Timespec
  create_time : Timespec

/-- `Inode::new()`: empty slot lists (`create_tlist`), size 0, all three
timestamps set to the current wall clock (the `now` argument). -/
def Inode.new (now : Timespec) : Inode :=
  { single := fun _ => none
    double := fun _ => none
    size := 0
    mod_time := now
    access_time := now
    create_time := now }

/-- `Inode::get_page` without its panics: locate the slot for page `num`
(direct list below `LIST_SIZE`, else the two-level indirect lookup).
Returns `none` when the indirect block or the page is absent; the callers
turn `none` (and `num ≥ MAX_PAGES`) into the corresponding panic. -/
def get_page (ino : Inode) (num : Nat) : Option Page :=
  if num < LIST_SIZE then
    ino.single num
  else
    match ino.double ((num - LIST_SIZE) / LIST_SIZE) with
    | none => none
    | some entry_list => entry_list ((num - LIST_SIZE) % LIST_SIZE)

/-- Store page `pg` in the slot for page number `num`, allocating the
containing indirect block (with all-absent slots) when needed.  This is the
state effect of `Inode::get_or_alloc_page` followed by mutation through the
returned `&mut Page`. -/
def set_page (ino : Inode) (num : Nat) (pg : Page) : Inode :=
  if num < LIST_SIZE then
    { ino with single := fun k => if k = num then some pg else ino.single k }
  else
    let slot := (num - LIST_SIZE) / LIST_SIZE
    let entry_offset := (num - LIST_SIZE) % LIST_SIZE
    let entry_list := match ino.double slot with
      | none => fun _ => none
      | some el => el
    { ino with
        double := fun k =>
          if k = slot then
            some (fun j => if j = entry_offset then some pg else entry_list j)
          else ino.double k }

/-- Observable byte of the inode at absolute byte address `addr`:
the byte `addr % PAGE_SIZE` of page `addr / PAGE_SIZE`, or `none` when that
page is absent. -/
def byteAt (ino : Inode) (addr : Nat) : Option Nat :=
  match get_page ino (addr / PAGE_SIZE) with
  | none => none
  | some pg => some (pg (addr % PAGE_SIZE))

/-- One page after `copy_nonoverlapping` in `Inode::write`: positions
`[bo, bo + nb)` receive `data[written .. written + nb)`, the rest keeps the
old page content. -/
def pageWrite (old : Page) (bo nb written : Nat) (data : List Nat) : Page :=
  fun j => if bo ≤ j ∧ j < bo + nb then data.getD (written + (j - bo)) 0 else old j

/-- The `for i in 0..blocks_to_act_on` loop of `Inode::write`, embedded by
structural recursion on `rem`, the number of iterations still to run
(invoked with `rem = N` = `blocks_to_act_on`, `i = 0`, `written = 0`).
Each iteration uses block offset `bo0` for `i = 0` and `0` afterwards,
copies `num_bytes` as the source computes it, and panics (result `none`,
carrying the state reached so far) when `start + i ≥ MAX_PAGES`
(`get_or_alloc_page`'s bound check). -/
def writeBlocks (start bo0 : Nat) (data : List Nat) (N : Nat) :
    Nat → Nat → Nat → Inode → Inode × Option Nat
  | 0, _i, written, ino => (ino, some written)
  | rem + 1, i, written, ino =>
      let bo := if i = 0 then bo0 else 0
      let nb := if i = N - 1 then data.length - written else PAGE_SIZE - bo
      if start + i < MAX_PAGES then
        let old := (get_page ino (start + i)).getD zeroPage
        writeBlocks start bo0 data N rem (i + 1) (written + nb)
          (set_page ino (start + i) (pageWrite old bo nb written data))
      else (ino, none)

/-- `Inode::write(offset, data)`: block decomposition, the copy loop, then
`size ← max(size, offset + written)` and `mod_time ← access_time ← now`.
Returns the post state and `some written`, or the at-panic state and
`none` when the loop hit the `MAX_PAGES` bound. -/
def Inode.write (ino : Inode) (offset : Nat) (data : List Nat) (now : Timespec) :
    Inode × Option Nat :=
  let block_offset := offset % PAGE_SIZE
  let start := offset / PAGE_SIZE
  let blocks_to_act_on := ceil_div (block_offset + data.length) PAGE_SIZE
  match writeBlocks start block_offset data blocks_to_act_on blocks_to_act_on 0 0 ino with
  | (s, none) => (s, none)
  | (s, some written) =>
      let last_byte := offset + written
      ({ s with
          size := if s.size < last_byte then last_byte else s.size
          mod_time := now
          access_time := now }, some written)

/-- The `for i in 0..blocks_to_act_on` loop of `Inode::read`, embedded like
`writeBlocks`.  `buf` is the caller's buffer; iteration `i` copies
`num_bytes` bytes of page `start + i` into `buf[read .. read + num_bytes)`.
Result `none` embeds the source's panics (page number out of range in
`get_page`, absent indirect block, or absent page — "Empty data."). -/
def readBlocks (start bo0 : Nat) (len : Nat) (N : Nat) (ino : Inode) :
    Nat → Nat → Nat → (Nat → Nat) → Option ((Nat → Nat) × Nat)
  | 0, _i, read, buf => some (buf, read)
  | rem + 1, i, read, buf =>
      let bo := if i = 0 then bo0 else 0
      let nb := if i = N - 1 then len - read else PAGE_SIZE - bo
      if start + i < MAX_PAGES then
        match get_page ino (start + i) with
        | none => none
        | some pg =>
            readBlocks start bo0 len N ino rem (i + 1) (read + nb)
              (fun k => if read ≤ k ∧ k < read + nb then pg (bo + (k - read)) else buf k)
      else none

/-- `Inode::read(offset, data)` where the caller's buffer has length `len`:
same block decomposition as `write`, byte-verbatim copy from the stored
pages into the buffer.  Returns the filled buffer and the byte count, or
`none` on the source's read panics.  `read` takes `&self`: it never
produces a modified inode, so size and timestamps are untouched by
construction. -/
def Inode.read (ino : Inode) (offset len : Nat) (buf : Nat → Nat) :
    Option ((Nat → Nat) × Nat) :=
  let block_offset := offset % PAGE_SIZE
  let start := offset / PAGE_SIZE
  let blocks_to_act_on := ceil_div (block_offset + len) PAGE_SIZE
  readBlocks start block_offset len blocks_to_act_on ino blocks_to_act_on 0 0 buf

/-- `Inode::stat()`: the `(create_time, access_time, mod_time)` triple. -/
def Inode.stat (ino : Inode) : Timespec × Timespec × Timespec :=
  (ino.create_time, ino.access_time, ino.mod_time)

/-- `File` from `file.rs`: a tagged handle.  The `Rc` payloads are embedded
as reference identities (numbers): two `File` values alias the same inode or
directory table exactly when they are equal, mirroring `Rc::clone`. -/
inductive File where
  | DataFile (inode : Nat)
  | Directory (dir : Nat)
  | EmptyFile
deriving DecidableEq

/-- `DirectoryContent` from `file.rs`: the `entries` name-to-File map.  The
`HashMap` is embedded by its lookup function (unordered, unique keys). -/
structure DirectoryContent where
  entries : String → Option File

/-- `DirectoryHandle::insert` on a Directory file (after the `borrow_mut` of
the shared `DirectoryContent`): `entries.insert(name, file)` adds or
replaces the binding. -/
def DirectoryContent.insert (d : DirectoryContent) (name : String) (file : File) :
    DirectoryContent :=
  ⟨fun k => if k = name then some file else d.entries k⟩

/-- `DirectoryHandle::remove`: `entries.remove(&name)` drops the binding if
present; an absent key leaves every binding as it was. -/
def DirectoryContent.remove (d : DirectoryContent) (name : String) : DirectoryContent :=
  ⟨fun k => if k = name then none else d.entries k⟩

/-- `DirectoryHandle::get`: looks the name up and returns a clone of the
stored handle (`(*file).clone()` on an `Rc` yields an alias, i.e. the same
handle value in this embedding). -/
def DirectoryContent.get (d : DirectoryContent) (name : String) : Option File :=
  match d.entries name with
  | none => none
  | some file => some file

/-- `Whence` from `file.rs`. -/
inductive Whence where
  | SeekSet
  | SeekCur
  | SeekEnd
deriving DecidableEq

/-- Two to the 64: the number of `usize` values on the source's 64-bit
target. -/
def USIZE_MOD : Nat := 18446744073709551616

/-- The Rust cast `i as usize` for an `isize` value `i`: two's-complement
reinterpretation, i.e. reduction modulo `2^64`. -/
def usizeCast (i : Int) : Nat := (i % (USIZE_MOD : Int)).toNat

/-- The Rust cast `n as isize` for a `usize` value `n`: values at or above
`2^63` reinterpret as negatives. -/
def isizeCast (n : Nat) : Int :=
  if n < 9223372036854775808 then (n : Int) else (n : Int) - (USIZE_MOD : Int)

/-- `FileHandle` from `file.rs`: the per-opener cursor (`seek: Cell<usize>`,
embedded as the field `seekPos`).  The wrapped `File` is left implicit: the
operations below take the underlying inode's data directly, which models a
handle over a `DataFile` (on any other variant `get_inode_rc` panics before
the cursor arithmetic runs). -/
structure FileHandle where
  seekPos : Nat
deriving DecidableEq

/-- `FileHandle::seek(offset, whence)`: computes the new cursor with the
source's `as usize` / `as isize` casts, stores it, and returns it.  `size`
is the underlying inode's `size()`.  There is no validation and no error
path in the source: the cast result is stored unconditionally. -/
def FileHandle.seek (fh : FileHandle) (size : Nat) (offset : Int) (whence : Whence) :
    Nat × FileHandle :=
  let new_seek := match whence with
    | Whence.SeekSet => usizeCast offset
    | Whence.SeekCur => usizeCast (isizeCast fh.seekPos + offset)
    | Whence.SeekEnd => usizeCast (isizeCast size + offset)
  (new_seek, { seekPos := new_seek })

/-! ### Page map lemmas -/

theorem get_page_set_page (ino : Inode) (n : Nat) (pg : Page) (m : Nat) :
    get_page (set_page ino n pg) m = if m = n then some pg else get_page ino m := by
  by_cases hn : n < LIST_SIZE
  · by_cases hm : m < LIST_SIZE
    · by_cases hmn : m = n
      · subst hmn; simp [get_page, set_page, hn]
      · simp [get_page, set_page, hn, hm, hmn]
    · have hmn : ¬ m = n := by simp only [LIST_SIZE] at hn hm; omega
      simp [get_page, set_page, hn, hm, hmn]
  · by_cases hm : m < LIST_SIZE
    · have hmn : ¬ m = n := by simp only [LIST_SIZE] at hn hm; omega
      simp [get_page, set_page, hn, hm, hmn]
    · by_cases hmn : m = n
      · subst hmn
        cases h : ino.double ((m - LIST_SIZE) / LIST_SIZE) <;>
          simp [get_page, set_page, hn, h]
      · by_cases hs : (m - LIST_SIZE) / LIST_SIZE = (n - LIST_SIZE) / LIST_SIZE
        · have hof : ¬ (m - LIST_SIZE) % LIST_SIZE = (n - LIST_SIZE) % LIST_SIZE := by
            simp only [LIST_SIZE] at hn hm hs ⊢; omega
          cases h : ino.double ((n - LIST_SIZE) / LIST_SIZE) <;>
            simp [get_page, set_page, hn, hm, hmn, hs, hof, h]
        · cases h : ino.double ((m - LIST_SIZE) / LIST_SIZE) <;>
            simp [get_page, set_page, hn, hm, hmn, hs, h]

theorem set_page_fields (ino : Inode) (n : Nat) (pg : Page) :
    (set_page ino n pg).size = ino.size ∧
    (set_page ino n pg).mod_time = ino.mod_time ∧
    (set_page ino n pg).access_time = ino.access_time ∧
    (set_page ino n pg).create_time = ino.create_time := by
  unfold set_page
  split <;> exact ⟨rfl, rfl, rfl, rfl⟩

theorem byteAt_congr_page {a b : Inode} (addr : Nat)
    (h : get_page a (addr / PAGE_SIZE) = get_page b (addr / PAGE_SIZE)) :
    byteAt a addr = byteAt b addr := by
  unfold byteAt
  rw [h]

/-! ### Write loop lemmas -/

theorem writeBlocks_fields (start bo0 : Nat) (data : List Nat) (N : Nat) :
    ∀ rem i w ino,
      ((writeBlocks start bo0 data N rem i w ino).1).size = ino.size ∧
      ((writeBlocks start bo0 data N rem i w ino).1).mod_time = ino.mod_time ∧
      ((writeBlocks start bo0 data N rem i w ino).1).access_time = ino.access_time ∧
      ((writeBlocks start bo0 data N rem i w ino).1).create_time = ino.create_time := by
  intro rem
  induction rem with
  | zero => intro i w ino; exact ⟨rfl, rfl, rfl, rfl⟩
  | succ rem ih =>
      intro i w ino
      simp only [writeBlocks]
      by_cases hmax : start + i < MAX_PAGES
      · simp only [if_pos hmax]
        have h1 := ih (i + 1)
          (w + if i = N - 1 then data.length - w else PAGE_SIZE - if i = 0 then bo0 else 0)
          (set_page ino (start + i)
            (pageWrite ((get_page ino (start + i)).getD zeroPage)
              (if i = 0 then bo0 else 0)
              (if i = N - 1 then data.length - w else PAGE_SIZE - if i = 0 then bo0 else 0)
              w data))
        have h2 := set_page_fields ino (start + i)
          (pageWrite ((get_page ino (start + i)).getD zeroPage)
            (if i = 0 then bo0 else 0)
            (if i = N - 1 then data.length - w else PAGE_SIZE - if i = 0 then bo0 else 0)
            w data)
        exact ⟨h1.1.trans h2.1, h1.2.1.trans h2.2.1, h1.2.2.1.trans h2.2.2.1,
               h1.2.2.2.trans h2.2.2.2⟩
      · rw [if_neg hmax]
        exact ⟨rfl, rfl, rfl, rfl⟩

theorem writeBlocks_frame (start bo0 : Nat) (data : List Nat) (N : Nat) :
    ∀ rem i w ino p, (p < start + i ∨ start + i + rem ≤ p) →
      get_page ((writeBlocks start bo0 data N rem i w ino).1) p = get_page ino p := by
  intro rem
  induction rem with
  | zero => intro i w ino p _; rfl
  | succ rem ih =>
      intro i w ino p hp
      simp only [writeBlocks]
      by_cases hmax : start + i < MAX_PAGES
      · simp only [if_pos hmax]
        have hrec := ih (i + 1)
          (w + if i = N - 1 then data.length - w else PAGE_SIZE - if i = 0 then bo0 else 0)
          (set_page ino (start + i)
            (pageWrite ((get_page ino (start + i)).getD zeroPage)
              (if i = 0 then bo0 else 0)
              (if i = N - 1 then data.length - w else PAGE_SIZE - if i = 0 then bo0 else 0)
              w data))
          p (by omega)
        rw [hrec, get_page_set_page]
        have hne : ¬ p = start + i := by omega
        rw [if_neg hne]
      · simp only [if_neg hmax]

theorem writeBlocks_isSome (start bo0 : Nat) (data : List Nat) (N : Nat) :
    ∀ rem i w ino,
      ((writeBlocks start bo0 data N rem i w ino).2).isSome = true ↔
        (rem = 0 ∨ start + i + rem ≤ MAX_PAGES) := by
  intro rem
  induction rem with
  | zero => intro i w ino; simp [writeBlocks]
  | succ rem ih =>
      intro i w ino
      simp only [writeBlocks]
      by_cases hmax : start + i < MAX_PAGES
      · rw [if_pos hmax]
        rw [ih]
        simp only [MAX_PAGES, LIST_SIZE] at hmax ⊢
        omega
      · rw [if_neg hmax]
        constructor
        · intro h; simp at h
        · intro h
          exfalso
          simp only [MAX_PAGES, LIST_SIZE] at hmax h
          omega

theorem writeBlocks_written (start bo0 : Nat) (data : List Nat) (N : Nat)
    (hbo : bo0 < PAGE_SIZE) (hN : N = ceil_div (bo0 + data.length) PAGE_SIZE) :
    ∀ rem i w ino s r,
      writeBlocks start bo0 data N rem i w ino = (s, some r) →
      i + rem = N →
      (rem = 0 ∨ (i = 0 ∧ w = 0) ∨ (1 ≤ i ∧ w + bo0 = PAGE_SIZE * i)) →
      r = if rem = 0 then w else data.length := by
  intro rem
  induction rem with
  | zero =>
      intro i w ino s r heq _ _
      simp only [writeBlocks] at heq
      injection heq with h1 h2
      injection h2 with h2
      simp [h2]
  | succ rem ih =>
      intro i w ino s r heq hiN hinv
      simp only [writeBlocks] at heq
      by_cases hmax : start + i < MAX_PAGES
      · rw [if_pos hmax] at heq
        by_cases hlast : i = N - 1
        · have hrem0 : rem = 0 := by omega
          subst hrem0
          rw [if_pos hlast] at heq
          simp only [writeBlocks] at heq
          injection heq with h1 h2
          injection h2 with h2
          have hwL : w ≤ data.length := by
            rcases hinv with h | ⟨hi0, hw0⟩ | ⟨hi1, hwi⟩
            · omega
            · omega
            · simp only [ceil_div, PAGE_SIZE] at hN hbo hwi ⊢
              omega
          rw [if_neg (by omega : ¬ (0 + 1 = 0))]
          omega
        · have hrem : 1 ≤ rem := by omega
          rw [if_neg hlast] at heq
          by_cases hi0 : i = 0
          · rw [if_pos hi0] at heq
            have hres := ih (i + 1) (w + (PAGE_SIZE - bo0)) _ s r heq (by omega)
              (by
                right; right
                constructor
                · omega
                · have hw0 : w = 0 := by
                    rcases hinv with h | ⟨_, hw0⟩ | ⟨hi1, _⟩
                    · omega
                    · exact hw0
                    · omega
                  subst hw0; subst hi0
                  simp only [PAGE_SIZE] at hbo ⊢
                  omega)
            rw [if_neg (by omega : ¬ rem = 0)] at hres
            rw [if_neg (by omega : ¬ rem + 1 = 0)]
            exact hres
          · rw [if_neg hi0] at heq
            have hres := ih (i + 1) (w + (PAGE_SIZE - 0)) _ s r heq (by omega)
              (by
                right; right
                constructor
                · omega
                · have hwi : w + bo0 = PAGE_SIZE * i := by
                    rcases hinv with h | ⟨hi0', _⟩ | ⟨_, hwi⟩
                    · omega
                    · exact absurd hi0' hi0
                    · exact hwi
                  simp only [PAGE_SIZE] at hwi ⊢
                  omega)
            rw [if_neg (by omega : ¬ rem = 0)] at hres
            rw [if_neg (by omega : ¬ rem + 1 = 0)]
            exact hres
      · rw [if_neg hmax] at heq
        injection heq with h1 h2
        exact absurd h2 (by simp)

/-- Effect of one loop iteration of `Inode::write` on the bytes of the page
it touches, phrased against the absolute byte range of the whole write. -/
theorem byteAt_set_pageWrite (ino : Inode) (P : Nat) (data : List Nat)
    (o boi nb w : Nat)
    (hfact : o + w = PAGE_SIZE * P + boi)
    (hbnb : boi + nb ≤ PAGE_SIZE)
    (hiff : ∀ a, PAGE_SIZE * P ≤ a → a < PAGE_SIZE * (P + 1) →
      ((o ≤ a ∧ a < o + data.length) ↔ (o + w ≤ a ∧ a < o + w + nb)))
    (addr : Nat) (hlo : PAGE_SIZE * P ≤ addr) (hhi : addr < PAGE_SIZE * (P + 1)) :
    byteAt (set_page ino P (pageWrite ((get_page ino P).getD zeroPage) boi nb w data)) addr =
      some (if o ≤ addr ∧ addr < o + data.length
            then data.getD (addr - o) 0
            else (byteAt ino addr).getD 0) := by
  have hpage : addr / PAGE_SIZE = P := by
    simp only [PAGE_SIZE] at hlo hhi ⊢; omega
  have hq : addr % PAGE_SIZE = addr - PAGE_SIZE * P := by
    simp only [PAGE_SIZE] at hlo hhi ⊢; omega
  unfold byteAt
  rw [hpage, get_page_set_page, if_pos rfl]
  show some (pageWrite ((get_page ino P).getD zeroPage) boi nb w data (addr % PAGE_SIZE)) = _
  simp only [pageWrite]
  by_cases hin : o ≤ addr ∧ addr < o + data.length
  · rw [if_pos hin]
    have hin' := (hiff addr hlo hhi).mp hin
    have hc : boi ≤ addr % PAGE_SIZE ∧ addr % PAGE_SIZE < boi + nb := by
      simp only [PAGE_SIZE] at hq hfact hin' hlo hhi ⊢; omega
    rw [if_pos hc]
    have hidx : w + (addr % PAGE_SIZE - boi) = addr - o := by
      simp only [PAGE_SIZE] at hq hfact hc hlo hhi ⊢; omega
    rw [hidx]
  · rw [if_neg hin]
    have hc : ¬ (boi ≤ addr % PAGE_SIZE ∧ addr % PAGE_SIZE < boi + nb) := by
      intro hc
      apply hin
      apply (hiff addr hlo hhi).mpr
      simp only [PAGE_SIZE] at hq hfact hc hlo hhi ⊢; omega
    rw [if_neg hc]
    cases hgp : get_page ino P <;> simp [hgp, zeroPage]

/-- Bytes of the inode after a successful run of the tail of the write loop:
every address on the remaining pages holds the written data inside the
write's byte range, and a zero-extended copy of the old content elsewhere on
those pages. -/
theorem writeBlocks_byteAt (start bo0 : Nat) (data : List Nat) (N : Nat)
    (hbo : bo0 < PAGE_SIZE) (hN : N = ceil_div (bo0 + data.length) PAGE_SIZE)
    (o : Nat) (ho : o = PAGE_SIZE * start + bo0) :
    ∀ rem i w ino s r,
      writeBlocks start bo0 data N rem i w ino = (s, some r) →
      i + rem = N →
      (rem = 0 ∨ (i = 0 ∧ w = 0) ∨ (1 ≤ i ∧ w + bo0 = PAGE_SIZE * i)) →
      ∀ addr, PAGE_SIZE * (start + i) ≤ addr → addr < PAGE_SIZE * (start + N) →
        byteAt s addr =
          some (if o ≤ addr ∧ addr < o + data.length
                then data.getD (addr - o) 0
                else (byteAt ino addr).getD 0) := by
  intro rem
  induction rem with
  | zero =>
      intro i w ino s r heq hiN hinv addr hlo hhi
      exfalso
      simp only [PAGE_SIZE] at hlo hhi
      omega
  | succ rem ih =>
      intro i w ino s r heq hiN hinv addr hlo hhi
      have hinv' : (i = 0 ∧ w = 0) ∨ (1 ≤ i ∧ w + bo0 = PAGE_SIZE * i) := by
        rcases hinv with h | h | h
        · exact absurd h (by omega)
        · exact Or.inl h
        · exact Or.inr h
      simp only [writeBlocks] at heq
      by_cases hmax : start + i < MAX_PAGES
      swap
      · rw [if_neg hmax] at heq
        injection heq with h1 h2
        exact absurd h2 (by simp)
      rw [if_pos hmax] at heq
      by_cases hrem0 : rem = 0
      · subst hrem0
        have hlast : i = N - 1 := by omega
        rw [if_pos hlast] at heq
        simp only [writeBlocks] at heq
        injection heq with hs hr
        rw [← hs]
        have hreg : addr < PAGE_SIZE * (start + i + 1) := by
          simp only [PAGE_SIZE] at hhi ⊢; omega
      -- this iteration is the last one: it covers bytes [o + w, o + data.length)
        by_cases hi0 : i = 0
        · rw [if_pos hi0]
          have hw0 : w = 0 := by
            rcases hinv' with ⟨_, hw0⟩ | ⟨hi1, _⟩
            · exact hw0
            · omega
          refine byteAt_set_pageWrite ino (start + i) data o bo0 (data.length - w) w ?_ ?_ ?_ addr hlo hreg
          · simp only [PAGE_SIZE] at ho ⊢; omega
          · simp only [PAGE_SIZE, ceil_div] at hN hbo ⊢; omega
          · intro a ha1 ha2
            simp only [PAGE_SIZE, ceil_div] at hN hbo ho ha1 ha2 ⊢; omega
        · rw [if_neg hi0]
          have hwi : w + bo0 = PAGE_SIZE * i := by
            rcases hinv' with ⟨hi0', _⟩ | ⟨_, hwi⟩
            · exact absurd hi0' hi0
            · exact hwi
          refine byteAt_set_pageWrite ino (start + i) data o 0 (data.length - w) w ?_ ?_ ?_ addr hlo hreg
          · simp only [PAGE_SIZE] at ho hwi ⊢; omega
          · simp only [PAGE_SIZE, ceil_div] at hN hbo hwi ⊢; omega
          · intro a ha1 ha2
            simp only [PAGE_SIZE, ceil_div] at hN hbo ho hwi ha1 ha2 ⊢; omega
      · have hlast : ¬ i = N - 1 := by omega
        rw [if_neg hlast] at heq
        by_cases hi0 : i = 0
        · rw [if_pos hi0] at heq
          have hw0 : w = 0 := by
            rcases hinv' with ⟨_, hw0⟩ | ⟨hi1, _⟩
            · exact hw0
            · omega
          by_cases hsplit : addr < PAGE_SIZE * (start + i + 1)
          · have hfst := congrArg Prod.fst heq
            have hframe := writeBlocks_frame start bo0 data N rem (i + 1)
              (w + (PAGE_SIZE - bo0))
              (set_page ino (start + i)
                (pageWrite ((get_page ino (start + i)).getD zeroPage) bo0 (PAGE_SIZE - bo0) w data))
              (addr / PAGE_SIZE)
              (Or.inl (by simp only [PAGE_SIZE] at hlo hsplit ⊢; omega))
            rw [hfst] at hframe
            rw [byteAt_congr_page addr hframe]
            refine byteAt_set_pageWrite ino (start + i) data o bo0 (PAGE_SIZE - bo0) w ?_ ?_ ?_ addr hlo hsplit
            · simp only [PAGE_SIZE] at ho ⊢; omega
            · simp only [PAGE_SIZE] at hbo ⊢; omega
            · intro a ha1 ha2
              simp only [PAGE_SIZE, ceil_div] at hN hbo ho ha1 ha2 ⊢; omega
          · have hres := ih (i + 1) (w + (PAGE_SIZE - bo0)) _ s r heq (by omega)
              (by
                right; right
                refine ⟨by omega, ?_⟩
                simp only [PAGE_SIZE] at hbo ⊢; omega)
              addr (by simp only [PAGE_SIZE] at hsplit ⊢; omega) hhi
            rw [hres]
            have haway : byteAt (set_page ino (start + i)
                (pageWrite ((get_page ino (start + i)).getD zeroPage) bo0 (PAGE_SIZE - bo0) w data)) addr
                = byteAt ino addr := by
              apply byteAt_congr_page
              rw [get_page_set_page,
                if_neg (by simp only [PAGE_SIZE] at hsplit ⊢; omega : ¬ addr / PAGE_SIZE = start + i)]
            rw [haway]
        · rw [if_neg hi0] at heq
          have hwi : w + bo0 = PAGE_SIZE * i := by
            rcases hinv' with ⟨hi0', _⟩ | ⟨_, hwi⟩
            · exact absurd hi0' hi0
            · exact hwi
          by_cases hsplit : addr < PAGE_SIZE * (start + i + 1)
          · have hfst := congrArg Prod.fst heq
            have hframe := writeBlocks_frame start bo0 data N rem (i + 1)
              (w + (PAGE_SIZE - 0))
              (set_page ino (start + i)
                (pageWrite ((get_page ino (start + i)).getD zeroPage) 0 (PAGE_SIZE - 0) w data))
              (addr / PAGE_SIZE)
              (Or.inl (by simp only [PAGE_SIZE] at hlo hsplit ⊢; omega))
            rw [hfst] at hframe
            rw [byteAt_congr_page addr hframe]
            refine byteAt_set_pageWrite ino (start + i) data o 0 (PAGE_SIZE - 0) w ?_ ?_ ?_ addr hlo hsplit
            · simp only [PAGE_SIZE] at ho hwi ⊢; omega
            · simp only [PAGE_SIZE] at hbo ⊢; omega
            · intro a ha1 ha2
              simp only [PAGE_SIZE, ceil_div] at hN hbo ho hwi ha1 ha2 ⊢; omega
          · have hres := ih (i + 1) (w + (PAGE_SIZE - 0)) _ s r heq (by omega)
              (by
                right; right
                refine ⟨by omega, ?_⟩
                simp only [PAGE_SIZE] at hbo hwi ⊢; omega)
              addr (by simp only [PAGE_SIZE] at hsplit ⊢; omega) hhi
            rw [hres]
            have haway : byteAt (set_page ino (start + i)
                (pageWrite ((get_page ino (start + i)).getD zeroPage) 0 (PAGE_SIZE - 0) w data)) addr
                = byteAt ino addr := by
              apply byteAt_congr_page
              rw [get_page_set_page,
                if_neg (by simp only [PAGE_SIZE] at hsplit ⊢; omega : ¬ addr / PAGE_SIZE = start + i)]
            rw [haway]

/-! ### Read loop lemmas -/

theorem byteAt_page_lookup (ino : Inode) (P : Nat) (pg : Page)
    (hgp : get_page ino P = some pg)
    (a q : Nat) (ha : a = PAGE_SIZE * P + q) (hq : q < PAGE_SIZE) :
    byteAt ino a = some (pg q) := by
  have hdiv : a / PAGE_SIZE = P := by simp only [PAGE_SIZE] at ha hq ⊢; omega
  have hmod : a % PAGE_SIZE = q := by simp only [PAGE_SIZE] at ha hq ⊢; omega
  unfold byteAt
  rw [hdiv, hgp, hmod]

theorem readBlocks_isSome (start bo0 len : Nat) (N : Nat) (ino : Inode) :
    ∀ rem i racc buf,
      (readBlocks start bo0 len N ino rem i racc buf).isSome = true ↔
        ∀ j, i ≤ j → j < i + rem →
          (start + j < MAX_PAGES ∧ (get_page ino (start + j)).isSome = true) := by
  intro rem
  induction rem with
  | zero =>
      intro i racc buf
      simp only [readBlocks, Option.isSome_some, true_iff]
      intro j h1 h2
      exact absurd h2 (by omega)
  | succ rem ih =>
      intro i racc buf
      simp only [readBlocks]
      by_cases hmax : start + i < MAX_PAGES
      · rw [if_pos hmax]
        cases hgp : get_page ino (start + i) with
        | none =>
            constructor
            · intro h; simp at h
            · intro hall
              exfalso
              have h := (hall i (Nat.le_refl i) (by omega)).2
              rw [hgp] at h
              simp at h
        | some pg =>
            rw [ih]
            constructor
            · intro hall j hj1 hj2
              by_cases hji : j = i
              · subst hji
                exact ⟨hmax, by rw [hgp]; rfl⟩
              · exact hall j (by omega) (by omega)
            · intro hall j hj1 hj2
              exact hall j (by omega) (by omega)
      · rw [if_neg hmax]
        constructor
        · intro h; simp at h
        · intro hall
          exact absurd (hall i (Nat.le_refl i) (by omega)).1 hmax

theorem readBlocks_spec (start bo0 len : Nat) (N : Nat) (ino : Inode)
    (hbo : bo0 < PAGE_SIZE) (hN : N = ceil_div (bo0 + len) PAGE_SIZE)
    (o : Nat) (ho : o = PAGE_SIZE * start + bo0) :
    ∀ rem i racc buf buf1 r1,
      readBlocks start bo0 len N ino rem i racc buf = some (buf1, r1) →
      i + rem = N →
      (rem = 0 ∨ (i = 0 ∧ racc = 0) ∨ (1 ≤ i ∧ racc + bo0 = PAGE_SIZE * i)) →
      (r1 = if rem = 0 then racc else len) ∧
      (∀ k, k < racc → buf1 k = buf k) ∧
      (∀ k, racc ≤ k → k < r1 → some (buf1 k) = byteAt ino (o + k)) := by
  intro rem
  induction rem with
  | zero =>
      intro i racc buf buf1 r1 heq _ _
      simp only [readBlocks] at heq
      injection heq with h
      injection h with hb hr
      subst hb; subst hr
      refine ⟨by simp, fun k _ => rfl, fun k hk1 hk2 => absurd hk2 (by omega)⟩
  | succ rem ih =>
      intro i racc buf buf1 r1 heq hiN hinv
      have hinv' : (i = 0 ∧ racc = 0) ∨ (1 ≤ i ∧ racc + bo0 = PAGE_SIZE * i) := by
        rcases hinv with h | h | h
        · exact absurd h (by omega)
        · exact Or.inl h
        · exact Or.inr h
      simp only [readBlocks] at heq
      by_cases hmax : start + i < MAX_PAGES
      swap
      · rw [if_neg hmax] at heq
        exact absurd heq (by simp)
      rw [if_pos hmax] at heq
      split at heq
      · exact absurd heq (by simp)
      rename_i pg hgp
      have hfact : o + racc = PAGE_SIZE * (start + i) + (if i = 0 then bo0 else 0) := by
        by_cases hi0 : i = 0
        · rw [if_pos hi0]
          rcases hinv' with ⟨_, hr0⟩ | ⟨hi1, _⟩
          · subst hi0; simp only [PAGE_SIZE] at ho ⊢; omega
          · omega
        · rw [if_neg hi0]
          rcases hinv' with ⟨hi0', _⟩ | ⟨_, hri⟩
          · exact absurd hi0' hi0
          · simp only [PAGE_SIZE] at ho hri ⊢; omega
      by_cases hrem0 : rem = 0
      · subst hrem0
        have hlast : i = N - 1 := by omega
        rw [if_pos hlast] at heq
        simp only [readBlocks] at heq
        injection heq with h
        injection h with hb hr
        have hracc : racc ≤ len := by
          rcases hinv' with ⟨_, hr0⟩ | ⟨hi1, hri⟩
          · omega
          · simp only [ceil_div, PAGE_SIZE] at hN hri ⊢; omega
        refine ⟨by rw [if_neg (by omega : ¬ (0 + 1 = 0))]; omega, ?_, ?_⟩
        · intro k hk
          rw [← hb]
          show (if racc ≤ k ∧ k < racc + (len - racc)
                then pg ((if i = 0 then bo0 else 0) + (k - racc)) else buf k) = buf k
          rw [if_neg (by omega : ¬ (racc ≤ k ∧ k < racc + (len - racc)))]
        · intro k hk1 hk2
          rw [← hb]
          show some (if racc ≤ k ∧ k < racc + (len - racc)
                     then pg ((if i = 0 then bo0 else 0) + (k - racc)) else buf k) = byteAt ino (o + k)
          rw [if_pos (by omega : racc ≤ k ∧ k < racc + (len - racc))]
          rw [byteAt_page_lookup ino (start + i) pg hgp (o + k)
            ((if i = 0 then bo0 else 0) + (k - racc))
            (by omega)
            (by
              have hup : (if i = 0 then bo0 else 0) + (len - racc) ≤ PAGE_SIZE := by
                by_cases hi0 : i = 0
                · rw [if_pos hi0]
                  rcases hinv' with ⟨_, hr0⟩ | ⟨hi1, _⟩
                  · subst hi0
                    simp only [ceil_div, PAGE_SIZE] at hN ⊢; omega
                  · omega
                · rw [if_neg hi0]
                  rcases hinv' with ⟨hi0', _⟩ | ⟨_, hri⟩
                  · exact absurd hi0' hi0
                  · simp only [ceil_div, PAGE_SIZE] at hN hri ⊢; omega
              omega)]
      · have hlast : ¬ i = N - 1 := by omega
        rw [if_neg hlast] at heq
        have hnext : (racc + (PAGE_SIZE - if i = 0 then bo0 else 0)) + bo0 = PAGE_SIZE * (i + 1) := by
          by_cases hi0 : i = 0
          · rw [if_pos hi0]
            rcases hinv' with ⟨_, hr0⟩ | ⟨hi1, _⟩
            · subst hi0; simp only [PAGE_SIZE] at hbo ⊢; omega
            · omega
          · rw [if_neg hi0]
            rcases hinv' with ⟨hi0', _⟩ | ⟨_, hri⟩
            · exact absurd hi0' hi0
            · simp only [PAGE_SIZE] at hbo hri ⊢; omega
        obtain ⟨hr1, hfr, hby⟩ := ih (i + 1) (racc + (PAGE_SIZE - if i = 0 then bo0 else 0))
          (fun k => if racc ≤ k ∧ k < racc + (PAGE_SIZE - if i = 0 then bo0 else 0)
                    then pg ((if i = 0 then bo0 else 0) + (k - racc)) else buf k)
          buf1 r1 heq (by omega)
          (Or.inr (Or.inr ⟨by omega, hnext⟩))
        rw [if_neg hrem0] at hr1
        have hboi_lt : (if i = 0 then bo0 else 0) < PAGE_SIZE := by
          by_cases hi0 : i = 0
          · rw [if_pos hi0]; exact hbo
          · rw [if_neg hi0]; simp only [PAGE_SIZE]; omega
        refine ⟨by rw [if_neg (by omega : ¬ (rem + 1 = 0))]; exact hr1, ?_, ?_⟩
        · intro k hk
          rw [hfr k (by omega)]
          show (if racc ≤ k ∧ k < racc + (PAGE_SIZE - if i = 0 then bo0 else 0)
                then pg ((if i = 0 then bo0 else 0) + (k - racc)) else buf k) = buf k
          rw [if_neg (by omega : ¬ (racc ≤ k ∧ k < racc + (PAGE_SIZE - if i = 0 then bo0 else 0)))]
        · intro k hk1 hk2
          by_cases hkin : k < racc + (PAGE_SIZE - if i = 0 then bo0 else 0)
          · rw [hfr k (by omega)]
            show some (if racc ≤ k ∧ k < racc + (PAGE_SIZE - if i = 0 then bo0 else 0)
                       then pg ((if i = 0 then bo0 else 0) + (k - racc)) else buf k) = byteAt ino (o + k)
            rw [if_pos (by omega : racc ≤ k ∧ k < racc + (PAGE_SIZE - if i = 0 then bo0 else 0))]
            rw [byteAt_page_lookup ino (start + i) pg hgp (o + k)
              ((if i = 0 then bo0 else 0) + (k - racc))
              (by omega)
              (by omega)]
          · exact hby k (by omega) (by omega)


/-! ### Top-level write/read characterizations -/

theorem write_panic_fields (ino : Inode) (offset : Nat) (data : List Nat) (now : Timespec)
    (s : Inode) (heq : Inode.write ino offset data now = (s, none)) :
    s.size = ino.size ∧ s.mod_time = ino.mod_time ∧
    s.access_time = ino.access_time ∧ s.create_time = ino.create_time := by
  rcases hw : writeBlocks (offset / PAGE_SIZE) (offset % PAGE_SIZE) data
      (ceil_div (offset % PAGE_SIZE + data.length) PAGE_SIZE)
      (ceil_div (offset % PAGE_SIZE + data.length) PAGE_SIZE) 0 0 ino with ⟨s0, w⟩
  unfold Inode.write at heq
  simp only [hw] at heq
  rcases w with _ | w
  · injection heq with h1 h2
    subst h1
    have hres := writeBlocks_fields (offset / PAGE_SIZE) (offset % PAGE_SIZE) data
      (ceil_div (offset % PAGE_SIZE + data.length) PAGE_SIZE)
      (ceil_div (offset % PAGE_SIZE + data.length) PAGE_SIZE) 0 0 ino
    rw [hw] at hres
    exact hres
  · exact absurd heq (by simp)

theorem write_success_state (ino : Inode) (offset : Nat) (data : List Nat) (now : Timespec)
    (s : Inode) (r : Nat) (heq : Inode.write ino offset data now = (s, some r)) :
    r = data.length ∧ s.size = max ino.size (offset + data.length) ∧
    s.mod_time = now ∧ s.access_time = now ∧ s.create_time = ino.create_time := by
  rcases hw : writeBlocks (offset / PAGE_SIZE) (offset % PAGE_SIZE) data
      (ceil_div (offset % PAGE_SIZE + data.length) PAGE_SIZE)
      (ceil_div (offset % PAGE_SIZE + data.length) PAGE_SIZE) 0 0 ino with ⟨s0, w⟩
  unfold Inode.write at heq
  simp only [hw] at heq
  rcases w with _ | w
  · exact absurd heq (by simp)
  · injection heq with h1 h2
    injection h2 with h2
    have hwlen : w = data.length := by
      have hres := writeBlocks_written (offset / PAGE_SIZE) (offset % PAGE_SIZE) data
        (ceil_div (offset % PAGE_SIZE + data.length) PAGE_SIZE)
        (by simp only [PAGE_SIZE]; omega) rfl
        (ceil_div (offset % PAGE_SIZE + data.length) PAGE_SIZE) 0 0 ino s0 w hw
        (by omega)
        (by by_cases h : ceil_div (offset % PAGE_SIZE + data.length) PAGE_SIZE = 0
            · exact Or.inl h
            · exact Or.inr (Or.inl ⟨rfl, rfl⟩))
      by_cases hN0 : ceil_div (offset % PAGE_SIZE + data.length) PAGE_SIZE = 0
      · rw [if_pos hN0] at hres
        have hlen0 : data.length = 0 := by
          simp only [ceil_div, PAGE_SIZE] at hN0; omega
        omega
      · rw [if_neg hN0] at hres
        exact hres
    have hfields := writeBlocks_fields (offset / PAGE_SIZE) (offset % PAGE_SIZE) data
      (ceil_div (offset % PAGE_SIZE + data.length) PAGE_SIZE)
      (ceil_div (offset % PAGE_SIZE + data.length) PAGE_SIZE) 0 0 ino
    rw [hw] at hfields
    refine ⟨by omega, ?_, by rw [← h1], by rw [← h1], by rw [← h1]; exact hfields.2.2.2⟩
    rw [← h1]
    show (if s0.size < offset + w then offset + w else s0.size) = max ino.size (offset + data.length)
    have hsz : s0.size = ino.size := hfields.1
    by_cases hlt : s0.size < offset + w
    · rw [if_pos hlt]; omega
    · rw [if_neg hlt]; omega

theorem write_isSome_iff (ino : Inode) (offset : Nat) (data : List Nat) (now : Timespec) :
    ((Inode.write ino offset data now).2).isSome = true ↔
      (ceil_div (offset % PAGE_SIZE + data.length) PAGE_SIZE = 0 ∨
       offset / PAGE_SIZE + ceil_div (offset % PAGE_SIZE + data.length) PAGE_SIZE ≤ MAX_PAGES) := by
  have hbase := writeBlocks_isSome (offset / PAGE_SIZE) (offset % PAGE_SIZE) data
    (ceil_div (offset % PAGE_SIZE + data.length) PAGE_SIZE)
    (ceil_div (offset % PAGE_SIZE + data.length) PAGE_SIZE) 0 0 ino
  rcases hw : writeBlocks (offset / PAGE_SIZE) (offset % PAGE_SIZE) data
      (ceil_div (offset % PAGE_SIZE + data.length) PAGE_SIZE)
      (ceil_div (offset % PAGE_SIZE + data.length) PAGE_SIZE) 0 0 ino with ⟨s0, w⟩
  rw [hw] at hbase
  unfold Inode.write
  simp only [hw]
  rcases w with _ | w
  · simp only [Option.isSome_none] at hbase ⊢
    constructor
    · intro h; simp at h
    · intro h
      exfalso
      have hfalse := hbase.mpr (by omega)
      simp at hfalse
  · simp only [Option.isSome_some] at hbase ⊢
    constructor
    · intro _
      have h := hbase.mp trivial
      omega
    · intro _
      trivial

theorem write_byteAt (ino : Inode) (offset : Nat) (data : List Nat) (now : Timespec)
    (s : Inode) (r : Nat) (heq : Inode.write ino offset data now = (s, some r)) :
    ∀ addr,
      byteAt s addr =
        if PAGE_SIZE * (offset / PAGE_SIZE) ≤ addr ∧
           addr < PAGE_SIZE * (offset / PAGE_SIZE +
             ceil_div (offset % PAGE_SIZE + data.length) PAGE_SIZE)
        then some (if offset ≤ addr ∧ addr < offset + data.length
                   then data.getD (addr - offset) 0
                   else (byteAt ino addr).getD 0)
        else byteAt ino addr := by
  intro addr
  rcases hw : writeBlocks (offset / PAGE_SIZE) (offset % PAGE_SIZE) data
      (ceil_div (offset % PAGE_SIZE + data.length) PAGE_SIZE)
      (ceil_div (offset % PAGE_SIZE + data.length) PAGE_SIZE) 0 0 ino with ⟨s0, w⟩
  unfold Inode.write at heq
  simp only [hw] at heq
  rcases w with _ | w
  · exact absurd heq (by simp)
  · injection heq with h1 h2
    have hb : byteAt s addr = byteAt s0 addr := by rw [← h1]; rfl
    rw [hb]
    by_cases hreg : PAGE_SIZE * (offset / PAGE_SIZE) ≤ addr ∧
        addr < PAGE_SIZE * (offset / PAGE_SIZE +
          ceil_div (offset % PAGE_SIZE + data.length) PAGE_SIZE)
    · rw [if_pos hreg]
      exact writeBlocks_byteAt (offset / PAGE_SIZE) (offset % PAGE_SIZE) data
        (ceil_div (offset % PAGE_SIZE + data.length) PAGE_SIZE)
        (by simp only [PAGE_SIZE]; omega) rfl
        offset (by simp only [PAGE_SIZE]; omega)
        (ceil_div (offset % PAGE_SIZE + data.length) PAGE_SIZE) 0 0 ino s0 w hw
        (by omega)
        (by by_cases h : ceil_div (offset % PAGE_SIZE + data.length) PAGE_SIZE = 0
            · exact Or.inl h
            · exact Or.inr (Or.inl ⟨rfl, rfl⟩))
        addr hreg.1 hreg.2
    · rw [if_neg hreg]
      apply byteAt_congr_page
      have hfr := writeBlocks_frame (offset / PAGE_SIZE) (offset % PAGE_SIZE) data
        (ceil_div (offset % PAGE_SIZE + data.length) PAGE_SIZE)
        (ceil_div (offset % PAGE_SIZE + data.length) PAGE_SIZE) 0 0 ino
        (addr / PAGE_SIZE)
        (by
          rw [Decidable.not_and_iff_or_not] at hreg
          rcases hreg with h | h
          · left; simp only [PAGE_SIZE] at h ⊢; omega
          · right; simp only [PAGE_SIZE] at h ⊢; omega)
      rw [hw] at hfr
      exact hfr

theorem read_spec (ino : Inode) (offset len : Nat) (buf buf1 : Nat → Nat) (r1 : Nat)
    (heq : Inode.read ino offset len buf = some (buf1, r1)) :
    r1 = len ∧ (∀ k, k < len → some (buf1 k) = byteAt ino (offset + k)) := by
  simp only [Inode.read] at heq
  have hres := readBlocks_spec (offset / PAGE_SIZE) (offset % PAGE_SIZE) len
    (ceil_div (offset % PAGE_SIZE + len) PAGE_SIZE) ino
    (by simp only [PAGE_SIZE]; omega) rfl
    offset (by simp only [PAGE_SIZE]; omega)
    (ceil_div (offset % PAGE_SIZE + len) PAGE_SIZE) 0 0 buf buf1 r1 heq
    (by omega)
    (by by_cases h : ceil_div (offset % PAGE_SIZE + len) PAGE_SIZE = 0
        · exact Or.inl h
        · exact Or.inr (Or.inl ⟨rfl, rfl⟩))
  obtain ⟨hr1, _, hbytes⟩ := hres
  have hrlen : r1 = len := by
    by_cases hN0 : ceil_div (offset % PAGE_SIZE + len) PAGE_SIZE = 0
    · rw [if_pos hN0] at hr1
      have hlen0 : len = 0 := by simp only [ceil_div, PAGE_SIZE] at hN0; omega
      omega
    · rw [if_neg hN0] at hr1
      exact hr1
  exact ⟨hrlen, fun k hk => hbytes k (by omega) (by omega)⟩

theorem read_isSome_iff (ino : Inode) (offset len : Nat) (buf : Nat → Nat) :
    (Inode.read ino offset len buf).isSome = true ↔
      ∀ j, j < ceil_div (offset % PAGE_SIZE + len) PAGE_SIZE →
        (offset / PAGE_SIZE + j < MAX_PAGES ∧
         (get_page ino (offset / PAGE_SIZE + j)).isSome = true) := by
  simp only [Inode.read]
  rw [readBlocks_isSome]
  constructor
  · intro hall j hj
    exact hall j (by omega) (by omega)
  · intro hall j hj1 hj2
    exact hall j (by omega)

/-! ### Mini lemmas used by the claim theorems -/

theorem get_page_isSome_of_byteAt {s : Inode} {a v : Nat} (h : byteAt s a = some v) :
    (get_page s (a / PAGE_SIZE)).isSome = true := by
  unfold byteAt at h
  rcases hgp : get_page s (a / PAGE_SIZE) with _ | pg
  · rw [hgp] at h; simp at h
  · rfl

theorem byteAt_of_get_page_isSome {ino : Inode} {p : Nat}
    (h : (get_page ino p).isSome = true) :
    ∃ v, byteAt ino (PAGE_SIZE * p) = some v := by
  rcases hgp : get_page ino p with _ | pg
  · rw [hgp] at h; simp at h
  · exact ⟨pg 0, byteAt_page_lookup ino p pg hgp (PAGE_SIZE * p) 0 (by omega)
      (by simp only [PAGE_SIZE]; omega)⟩

theorem write_preserves_alloc (ino : Inode) (offset : Nat) (data : List Nat) (now : Timespec)
    (s : Inode) (r : Nat) (heq : Inode.write ino offset data now = (s, some r))
    (p : Nat) (h : (get_page ino p).isSome = true) :
    (get_page s p).isSome = true := by
  obtain ⟨v, hv⟩ := byteAt_of_get_page_isSome h
  have hchar := write_byteAt ino offset data now s r heq (PAGE_SIZE * p)
  have hdiv : PAGE_SIZE * p / PAGE_SIZE = p := by simp only [PAGE_SIZE]; omega
  by_cases hreg : PAGE_SIZE * (offset / PAGE_SIZE) ≤ PAGE_SIZE * p ∧
      PAGE_SIZE * p < PAGE_SIZE * (offset / PAGE_SIZE +
        ceil_div (offset % PAGE_SIZE + data.length) PAGE_SIZE)
  · rw [if_pos hreg] at hchar
    have := get_page_isSome_of_byteAt hchar
    rwa [hdiv] at this
  · rw [if_neg hreg] at hchar
    rw [hv] at hchar
    have := get_page_isSome_of_byteAt hchar
    rwa [hdiv] at this

/-! ### Claim theorems -/

/-- Claim C3, counterexample: a zero-length write at offset 0 on a fresh
inode returns 0 but updates `mod_time` and `access_time` to the current
instant, so the claim that a zero-length write leaves all timestamps
unchanged is false on the code. -/
theorem c3_counterexample :
    (Inode.write (Inode.new ⟨0, 0⟩) 0 [] ⟨5, 0⟩).2 = some 0 ∧
    (Inode.write (Inode.new ⟨0, 0⟩) 0 [] ⟨5, 0⟩).1.mod_time ≠ (Inode.new ⟨0, 0⟩).mod_time ∧
    (Inode.write (Inode.new ⟨0, 0⟩) 0 [] ⟨5, 0⟩).1.access_time ≠ (Inode.new ⟨0, 0⟩).access_time := by
  exact ⟨by decide, by decide, by decide⟩

/-- Claim C3 (amended): a zero-length write whose offset is page-aligned or
whose page number is in range returns 0 and leaves `create_time` unchanged,
but it sets `mod_time` and `access_time` to the current time.  (An unaligned
zero-length write with `offset / 4096 ≥ 65792` panics instead, because the
loop still runs one iteration and allocates the page.) -/
theorem c3_zero_write (ino : Inode) (offset : Nat) (now : Timespec)
    (h : offset % PAGE_SIZE = 0 ∨ offset / PAGE_SIZE < MAX_PAGES) :
    (Inode.write ino offset [] now).2 = some 0 ∧
    (Inode.write ino offset [] now).1.mod_time = now ∧
    (Inode.write ino offset [] now).1.access_time = now ∧
    (Inode.write ino offset [] now).1.create_time = ino.create_time := by
  have hsome : ((Inode.write ino offset [] now).2).isSome = true := by
    rw [write_isSome_iff]
    simp only [ceil_div, PAGE_SIZE, MAX_PAGES, LIST_SIZE, List.length_nil] at h ⊢
    omega
  rcases hw : Inode.write ino offset [] now with ⟨s, r⟩
  rw [hw] at hsome
  rcases r with _ | w
  · simp at hsome
  · have hstate := write_success_state ino offset [] now s w hw
    simp only [List.length_nil] at hstate
    exact ⟨by rw [hstate.1], hstate.2.2.1, hstate.2.2.2.1, hstate.2.2.2.2⟩

/-- Claim C3 amended, witness at a concrete input. -/
theorem c3_zero_write_witness :
    (0 % PAGE_SIZE = 0 ∨ 0 / PAGE_SIZE < MAX_PAGES) ∧
    ((Inode.write (Inode.new ⟨0, 0⟩) 0 [] ⟨5, 0⟩).2 = some 0 ∧
     (Inode.write (Inode.new ⟨0, 0⟩) 0 [] ⟨5, 0⟩).1.mod_time = ⟨5, 0⟩ ∧
     (Inode.write (Inode.new ⟨0, 0⟩) 0 [] ⟨5, 0⟩).1.access_time = ⟨5, 0⟩ ∧
     (Inode.write (Inode.new ⟨0, 0⟩) 0 [] ⟨5, 0⟩).1.create_time = (Inode.new ⟨0, 0⟩).create_time) :=
  ⟨by decide, c3_zero_write (Inode.new ⟨0, 0⟩) 0 ⟨5, 0⟩ (by decide)⟩

/-- Claim C4, counterexample: `seek` with `SeekSet` and a negative delta
does not signal any error; it stores and returns the two's-complement wrap
`2^64 - 1` of `-1`. -/
theorem c4_counterexample :
    FileHandle.seek ⟨0⟩ 0 (-1) Whence.SeekSet =
      (18446744073709551615, ⟨18446744073709551615⟩) := by
  decide

/-- Claim C4 (amended): `FileHandle::seek` performs no validation and has no
error path.  The new cursor is the two's-complement `usize` cast of the
computed signed value: a non-negative result is stored as is, a negative
result wraps to `2^64 + result`; in every case the cursor cell is set to the
returned value. -/
theorem c4_seek_wraps (cur size : Nat) (delta : Int)
    (hc : cur < 9223372036854775808) (hs : size < 9223372036854775808)
    (hdlo : -(9223372036854775808 : Int) ≤ delta) (hdhi : delta < 9223372036854775808) :
    ((FileHandle.seek ⟨cur⟩ size delta Whence.SeekSet).1 =
      if 0 ≤ delta then delta.toNat else ((18446744073709551616 : Int) + delta).toNat) ∧
    ((FileHandle.seek ⟨cur⟩ size delta Whence.SeekCur).1 =
      if 0 ≤ (cur : Int) + delta then ((cur : Int) + delta).toNat
      else ((18446744073709551616 : Int) + cur + delta).toNat) ∧
    ((FileHandle.seek ⟨cur⟩ size delta Whence.SeekEnd).1 =
      if 0 ≤ (size : Int) + delta then ((size : Int) + delta).toNat
      else ((18446744073709551616 : Int) + size + delta).toNat) ∧
    (∀ wh, (FileHandle.seek ⟨cur⟩ size delta wh).2.seekPos =
      (FileHandle.seek ⟨cur⟩ size delta wh).1) := by
  refine ⟨?_, ?_, ?_, ?_⟩
  · simp only [FileHandle.seek, usizeCast, USIZE_MOD]
    split <;> omega
  · simp only [FileHandle.seek, usizeCast, isizeCast, USIZE_MOD]
    rw [if_pos hc]
    split <;> omega
  · simp only [FileHandle.seek, usizeCast, isizeCast, USIZE_MOD]
    rw [if_pos hs]
    split <;> omega
  · intro wh
    cases wh <;> rfl

/-- Claim C4 amended, witness at a concrete input. -/
theorem c4_seek_wraps_witness :
    ((FileHandle.seek ⟨5⟩ 7 (-1) Whence.SeekSet).1 =
      if 0 ≤ (-1 : Int) then (-1 : Int).toNat else ((18446744073709551616 : Int) + (-1)).toNat) ∧
    ((FileHandle.seek ⟨5⟩ 7 (-1) Whence.SeekCur).1 =
      if 0 ≤ (5 : Int) + (-1) then ((5 : Int) + (-1)).toNat
      else ((18446744073709551616 : Int) + 5 + (-1)).toNat) ∧
    ((FileHandle.seek ⟨5⟩ 7 (-1) Whence.SeekEnd).1 =
      if 0 ≤ (7 : Int) + (-1) then ((7 : Int) + (-1)).toNat
      else ((18446744073709551616 : Int) + 7 + (-1)).toNat) ∧
    (∀ wh, (FileHandle.seek ⟨5⟩ 7 (-1) wh).2.seekPos = (FileHandle.seek ⟨5⟩ 7 (-1) wh).1) :=
  c4_seek_wraps 5 7 (-1) (by decide) (by decide) (by decide) (by decide)

/-- Claim C5: after every successful write, `size` equals the maximum of the
previous `size` and `offset + |data|`; in particular `size` never decreases.
(`Inode.read` takes the inode immutably in the embedding, exactly as `&self`
in the source, so reads cannot change `size`.) -/
theorem c5_size_after_write (ino : Inode) (offset : Nat) (data : List Nat) (now : Timespec)
    (s : Inode) (r : Nat) (heq : Inode.write ino offset data now = (s, some r)) :
    s.size = max ino.size (offset + data.length) ∧ ino.size ≤ s.size := by
  have h := write_success_state ino offset data now s r heq
  refine ⟨h.2.1, ?_⟩
  have hmax := h.2.1
  omega

/-- Claim C5, witness at a concrete input. -/
theorem c5_size_after_write_witness :
    (Inode.write (Inode.new ⟨0, 0⟩) 2 [7] ⟨1, 0⟩).1.size =
      max (Inode.new ⟨0, 0⟩).size (2 + [(7 : Nat)].length) ∧
    (Inode.new ⟨0, 0⟩).size ≤ (Inode.write (Inode.new ⟨0, 0⟩) 2 [7] ⟨1, 0⟩).1.size :=
  c5_size_after_write (Inode.new ⟨0, 0⟩) 2 [7] ⟨1, 0⟩ _ 1 (Prod.ext rfl (by decide))

/-- Claim C6: immediately after `Inode::new()` the three timestamps are
equal; after every successful non-empty write, `mod_time = access_time`,
both are at least `create_time` (the wall clock passed to the write is at or
after the construction instant), and `create_time` still holds the value it
was given at construction — no operation mutates it. -/
theorem c6_timestamps (t : Timespec) (ino : Inode) (offset : Nat) (data : List Nat)
    (now : Timespec) (s : Inode) (r : Nat)
    (hne : data ≠ [])
    (hclock : Timespec.le ino.create_time now)
    (heq : Inode.write ino offset data now = (s, some r)) :
    ((Inode.new t).create_time = t ∧ (Inode.new t).mod_time = t ∧
     (Inode.new t).access_time = t) ∧
    (s.mod_time = s.access_time ∧ Timespec.le s.create_time s.mod_time ∧
     s.create_time = ino.create_time) := by
  have h := write_success_state ino offset data now s r heq
  refine ⟨⟨rfl, rfl, rfl⟩, ?_, ?_, h.2.2.2.2⟩
  · rw [h.2.2.1, h.2.2.2.1]
  · rw [h.2.2.1, h.2.2.2.2]
    exact hclock

/-- Claim C6, witness at a concrete input. -/
theorem c6_timestamps_witness :
    (((Inode.new ⟨0, 0⟩).create_time = ⟨0, 0⟩ ∧ (Inode.new ⟨0, 0⟩).mod_time = ⟨0, 0⟩ ∧
      (Inode.new ⟨0, 0⟩).access_time = ⟨0, 0⟩) ∧
     ((Inode.write (Inode.new ⟨0, 0⟩) 0 [1] ⟨1, 0⟩).1.mod_time =
        (Inode.write (Inode.new ⟨0, 0⟩) 0 [1] ⟨1, 0⟩).1.access_time ∧
      Timespec.le (Inode.write (Inode.new ⟨0, 0⟩) 0 [1] ⟨1, 0⟩).1.create_time
        (Inode.write (Inode.new ⟨0, 0⟩) 0 [1] ⟨1, 0⟩).1.mod_time ∧
      (Inode.write (Inode.new ⟨0, 0⟩) 0 [1] ⟨1, 0⟩).1.create_time =
        (Inode.new ⟨0, 0⟩).create_time)) :=
  c6_timestamps ⟨0, 0⟩ (Inode.new ⟨0, 0⟩) 0 [1] ⟨1, 0⟩ _ 1
    (by decide) (by decide) (Prod.ext rfl (by decide))

/-- Claim C7, counterexample: the spec's maximum file size constant is
wrong.  `(256 + 256*256) * 4096 = 269484032`, not `269500416`; a one-byte
write at offset `269484032` satisfies `offset + |data| ≤ 269500416` yet the
code panics with "Maximum file size exceeded" (result `none`). -/
theorem c7_counterexample :
    269484032 + ([(7 : Nat)]).length ≤ 269500416 ∧
    (Inode.write (Inode.new ⟨0, 0⟩) 269484032 [7] ⟨1, 0⟩).2 = none := by
  exact ⟨by decide, by decide⟩

/-- Claim C7 (amended): `Inode::write` fails exactly when the loop would
need a page number at or beyond `256 + 256*256 = 65792`; every write with
`offset + |data| ≤ 269484032` (the true maximum file size) succeeds and
returns `|data|`.  For non-empty data the failure condition is equivalent to
`(offset + |data| - 1) / 4096 ≥ 65792`. -/
theorem c7_file_too_large (ino : Inode) (offset : Nat) (data : List Nat) (now : Timespec) :
    (offset + data.length ≤ MAX_FILE_SIZE →
      (Inode.write ino offset data now).2 = some data.length) ∧
    ((Inode.write ino offset data now).2 = none ↔
      (1 ≤ ceil_div (offset % PAGE_SIZE + data.length) PAGE_SIZE ∧
       MAX_PAGES ≤ offset / PAGE_SIZE +
         ceil_div (offset % PAGE_SIZE + data.length) PAGE_SIZE - 1)) ∧
    (1 ≤ data.length →
      ((Inode.write ino offset data now).2 = none ↔
        MAX_PAGES ≤ (offset + data.length - 1) / PAGE_SIZE)) := by
  have hiff := write_isSome_iff ino offset data now
  have hnone : ((Inode.write ino offset data now).2 = none) ↔
      ¬ (((Inode.write ino offset data now).2).isSome = true) := by
    rcases (Inode.write ino offset data now).2 with _ | w <;> simp
  refine ⟨?_, ?_, ?_⟩
  · intro h
    have hsome : ((Inode.write ino offset data now).2).isSome = true := by
      rw [hiff]
      simp only [ceil_div, PAGE_SIZE, MAX_PAGES, LIST_SIZE, MAX_FILE_SIZE] at h ⊢
      omega
    rcases hw : Inode.write ino offset data now with ⟨s, r⟩
    rw [hw] at hsome
    rcases r with _ | w
    · simp at hsome
    · have hstate := write_success_state ino offset data now s w hw
      rw [hstate.1]
  · rw [hnone, hiff]
    simp only [ceil_div, PAGE_SIZE, MAX_PAGES, LIST_SIZE]
    omega
  · intro hlen
    rw [hnone, hiff]
    simp only [ceil_div, PAGE_SIZE, MAX_PAGES, LIST_SIZE]
    omega

/-- Claim C7 amended, witness at a concrete input. -/
theorem c7_file_too_large_witness :
    (Inode.write (Inode.new ⟨0, 0⟩) 0 [1] ⟨1, 0⟩).2 = some ([(1 : Nat)]).length :=
  (c7_file_too_large (Inode.new ⟨0, 0⟩) 0 [1] ⟨1, 0⟩).1 (by decide)

/-- Claim C9: on a directory's entry map, a second `insert` under the same
name replaces the first, so `get` returns (an alias of, i.e. in this
embedding exactly) `f2`; after `remove(n)`, `get(n)` is absent; and
`remove` of an absent name is a silent no-op that leaves the entries map
unchanged. -/
theorem c9_directory (d : DirectoryContent) (n : String) (f1 f2 : File) :
    ((d.insert n f1).insert n f2).get n = some f2 ∧
    (∀ d' : DirectoryContent, (d'.remove n).get n = none) ∧
    (d.get n = none → d.remove n = d) := by
  refine ⟨?_, ?_, ?_⟩
  · simp [DirectoryContent.insert, DirectoryContent.get]
  · intro d'
    simp [DirectoryContent.remove, DirectoryContent.get]
  · intro h
    have hent : d.entries n = none := by
      unfold DirectoryContent.get at h
      rcases he : d.entries n with _ | f
      · rfl
      · rw [he] at h; simp at h
    unfold DirectoryContent.remove
    cases d with
    | mk entries =>
        congr 1
        funext k
        by_cases hk : k = n
        · subst hk
          rw [if_pos rfl]
          exact hent.symm
        · rw [if_neg hk]

/-- Claim C9, witness at a concrete input. -/
theorem c9_directory_witness :
    ((DirectoryContent.mk fun _ => none).get "x" = none) ∧
    ((DirectoryContent.mk fun _ => none).remove "x" = DirectoryContent.mk fun _ => none) :=
  ⟨rfl, (c9_directory (DirectoryContent.mk fun _ => none) "x" File.EmptyFile File.EmptyFile).2.2 rfl⟩

/-- Canonical equation for a successful write: when `offset + |data|` is
within the true maximum file size, the write returns its post state
together with `some |data|`. -/
theorem write_success_eq (st : Inode) (o : Nat) (d : List Nat) (tt : Timespec)
    (h : o + d.length ≤ MAX_FILE_SIZE) :
    Inode.write st o d tt = ((Inode.write st o d tt).1, some d.length) := by
  have hsome : ((Inode.write st o d tt).2).isSome = true := by
    rw [write_isSome_iff]
    simp only [ceil_div, PAGE_SIZE, MAX_PAGES, LIST_SIZE, MAX_FILE_SIZE] at h ⊢
    omega
  rcases hw : Inode.write st o d tt with ⟨s, r⟩
  rw [hw] at hsome
  rcases r with _ | w
  · simp at hsome
  · have hlen := (write_success_state _ _ _ _ _ _ hw).1
    subst hlen
    rfl

/-- Claim C1, counterexample: the spec's maximum file size 269500416 is not
the code's.  `(256 + 256*256) * 4096 = 269484032`, so a one-byte write at
offset 269484032 satisfies the claim's bound yet panics instead of
returning `|bytes| = 1`; no round trip is possible there. -/
theorem c1_counterexample :
    269484032 + ([(1 : Nat)]).length ≤ 269500416 ∧
    (Inode.write (Inode.new ⟨0, 0⟩) 269484032 [1] ⟨1, 0⟩).2 = none := by
  exact ⟨by decide, by decide⟩

/-- Claim C1 (amended): for `offset + |bytes| ≤ 269484032` (the code's
actual maximum file size `MAX_FILE_SIZE`), after `Inode::new()` and
`write(offset, bytes)`, the write returns `|bytes|` and a read of
`|bytes|` bytes at `offset` into a zero-filled buffer succeeds, returns
`|bytes|`, and fills the buffer with exactly `bytes`. -/
theorem c1_round_trip (t now : Timespec) (offset : Nat) (bytes : List Nat)
    (h : offset + bytes.length ≤ MAX_FILE_SIZE) :
    (Inode.write (Inode.new t) offset bytes now).2 = some bytes.length ∧
    ∃ buf1, Inode.read (Inode.write (Inode.new t) offset bytes now).1 offset bytes.length
        (fun _ => 0) = some (buf1, bytes.length) ∧
      ∀ k, k < bytes.length → buf1 k = bytes.getD k 0 := by
  have hweq := write_success_eq (Inode.new t) offset bytes now h
  have hchar := write_byteAt _ _ _ _ _ _ hweq
  constructor
  · rw [hweq]
  · have hreadsome : (Inode.read (Inode.write (Inode.new t) offset bytes now).1 offset
        bytes.length (fun _ => 0)).isSome = true := by
      rw [read_isSome_iff]
      intro j hj
      constructor
      · simp only [ceil_div, PAGE_SIZE, MAX_PAGES, LIST_SIZE, MAX_FILE_SIZE] at h hj ⊢
        omega
      · have hb := hchar (PAGE_SIZE * (offset / PAGE_SIZE + j))
        rw [if_pos (by
          refine ⟨by simp only [PAGE_SIZE]; omega, ?_⟩
          simp only [PAGE_SIZE] at hj ⊢
          omega)] at hb
        have hg := get_page_isSome_of_byteAt hb
        rwa [show PAGE_SIZE * (offset / PAGE_SIZE + j) / PAGE_SIZE = offset / PAGE_SIZE + j
          from by simp only [PAGE_SIZE]; omega] at hg
    obtain ⟨⟨buf1, r1⟩, hr⟩ := Option.isSome_iff_exists.mp hreadsome
    obtain ⟨hr1, hbytes⟩ := read_spec _ _ _ _ _ _ hr
    refine ⟨buf1, by rw [hr, hr1], ?_⟩
    intro k hk
    have hb := hbytes k hk
    have hc := hchar (offset + k)
    rw [if_pos (by
      refine ⟨by simp only [PAGE_SIZE]; omega, ?_⟩
      simp only [ceil_div, PAGE_SIZE]
      omega)] at hc
    rw [if_pos (by omega : offset ≤ offset + k ∧ offset + k < offset + bytes.length)] at hc
    rw [show offset + k - offset = k from by omega] at hc
    rw [hc] at hb
    exact Option.some.inj hb

/-- Claim C1 amended, witness at a concrete input. -/
theorem c1_round_trip_witness :
    (0 + ([1, 2, 3] : List Nat).length ≤ MAX_FILE_SIZE) ∧
    ((Inode.write (Inode.new ⟨0, 0⟩) 0 [1, 2, 3] ⟨1, 0⟩).2 =
       some ([1, 2, 3] : List Nat).length ∧
     ∃ buf1, Inode.read (Inode.write (Inode.new ⟨0, 0⟩) 0 [1, 2, 3] ⟨1, 0⟩).1 0
         ([1, 2, 3] : List Nat).length (fun _ => 0) =
           some (buf1, ([1, 2, 3] : List Nat).length) ∧
       ∀ k, k < ([1, 2, 3] : List Nat).length → buf1 k = ([1, 2, 3] : List Nat).getD k 0) :=
  ⟨by decide, c1_round_trip ⟨0, 0⟩ ⟨1, 0⟩ 0 [1, 2, 3] (by decide)⟩

/-- Claim C2, counterexample: a two-byte write starting at the last byte of
page 65791 writes that byte in its first loop iteration and panics in the
second (page 65792 is out of range).  The write signals an error, yet the
inode's page contents changed: the byte at the write offset, absent before,
now holds the first data byte.  Writes are not atomic on failure. -/
theorem c2_counterexample :
    (Inode.write (Inode.new ⟨0, 0⟩) 269484031 [9, 9] ⟨1, 0⟩).2 = none ∧
    byteAt (Inode.write (Inode.new ⟨0, 0⟩) 269484031 [9, 9] ⟨1, 0⟩).1 269484031 = some 9 ∧
    byteAt (Inode.new ⟨0, 0⟩) 269484031 = none := by
  exact ⟨by decide, by decide, by decide⟩

/-- Claim C2 (amended): when a write fails (the page-limit panic), `size`
and all three timestamps are unchanged — those updates come only after the
loop — but pages written by loop iterations before the failing one keep the
new bytes, so a failing multi-page write can be applied partially. -/
theorem c2_failed_write_fields (ino : Inode) (offset : Nat) (data : List Nat) (now : Timespec)
    (s : Inode) (heq : Inode.write ino offset data now = (s, none)) :
    s.size = ino.size ∧ s.mod_time = ino.mod_time ∧
    s.access_time = ino.access_time ∧ s.create_time = ino.create_time :=
  write_panic_fields ino offset data now s heq

/-- Claim C2 amended, witness at a concrete failing write. -/
theorem c2_failed_write_fields_witness :
    (Inode.write (Inode.new ⟨0, 0⟩) 269484032 [1] ⟨1, 0⟩).1.size = (Inode.new ⟨0, 0⟩).size ∧
    (Inode.write (Inode.new ⟨0, 0⟩) 269484032 [1] ⟨1, 0⟩).1.mod_time =
      (Inode.new ⟨0, 0⟩).mod_time ∧
    (Inode.write (Inode.new ⟨0, 0⟩) 269484032 [1] ⟨1, 0⟩).1.access_time =
      (Inode.new ⟨0, 0⟩).access_time ∧
    (Inode.write (Inode.new ⟨0, 0⟩) 269484032 [1] ⟨1, 0⟩).1.create_time =
      (Inode.new ⟨0, 0⟩).create_time :=
  c2_failed_write_fields (Inode.new ⟨0, 0⟩) 269484032 [1] ⟨1, 0⟩ _ (Prod.ext rfl (by decide))

/-- Claim C8: two successful writes whose page ranges are disjoint commute
on the stored bytes: A then B yields the same `byteAt` observations as B
then A.  Page-range disjointness is phrased as in the code's tiling: one
range is empty or they are ordered. -/
theorem c8_disjoint_writes_commute
    (ino : Inode) (oA oB : Nat) (dA dB : List Nat) (t1 t2 t3 t4 : Timespec)
    (hA : oA + dA.length ≤ MAX_FILE_SIZE) (hB : oB + dB.length ≤ MAX_FILE_SIZE)
    (hdisj : ceil_div (oA % PAGE_SIZE + dA.length) PAGE_SIZE = 0 ∨
             ceil_div (oB % PAGE_SIZE + dB.length) PAGE_SIZE = 0 ∨
             oA / PAGE_SIZE + ceil_div (oA % PAGE_SIZE + dA.length) PAGE_SIZE ≤ oB / PAGE_SIZE ∨
             oB / PAGE_SIZE + ceil_div (oB % PAGE_SIZE + dB.length) PAGE_SIZE ≤ oA / PAGE_SIZE) :
    ∀ addr,
      byteAt (Inode.write (Inode.write ino oA dA t1).1 oB dB t2).1 addr =
      byteAt (Inode.write (Inode.write ino oB dB t3).1 oA dA t4).1 addr := by
  intro addr
  have e1 := write_success_eq ino oA dA t1 hA
  have e2 := write_success_eq (Inode.write ino oA dA t1).1 oB dB t2 hB
  have e3 := write_success_eq ino oB dB t3 hB
  have e4 := write_success_eq (Inode.write ino oB dB t3).1 oA dA t4 hA
  rw [write_byteAt _ _ _ _ _ _ e2 addr, write_byteAt _ _ _ _ _ _ e1 addr,
      write_byteAt _ _ _ _ _ _ e4 addr, write_byteAt _ _ _ _ _ _ e3 addr]
  by_cases hra : PAGE_SIZE * (oA / PAGE_SIZE) ≤ addr ∧
      addr < PAGE_SIZE * (oA / PAGE_SIZE + ceil_div (oA % PAGE_SIZE + dA.length) PAGE_SIZE)
  · by_cases hrb : PAGE_SIZE * (oB / PAGE_SIZE) ≤ addr ∧
        addr < PAGE_SIZE * (oB / PAGE_SIZE + ceil_div (oB % PAGE_SIZE + dB.length) PAGE_SIZE)
    · exfalso
      simp only [PAGE_SIZE] at hra hrb hdisj
      omega
    · simp only [if_pos hra, if_neg hrb, Option.getD_some]
  · by_cases hrb : PAGE_SIZE * (oB / PAGE_SIZE) ≤ addr ∧
        addr < PAGE_SIZE * (oB / PAGE_SIZE + ceil_div (oB % PAGE_SIZE + dB.length) PAGE_SIZE)
    · simp only [if_neg hra, if_pos hrb, Option.getD_some]
    · simp only [if_neg hra, if_neg hrb]

/-- Claim C8, witness at a concrete input (pages 0 and 1). -/
theorem c8_disjoint_writes_commute_witness :
    byteAt (Inode.write (Inode.write (Inode.new ⟨0, 0⟩) 0 [1] ⟨1, 0⟩).1 4096 [2] ⟨2, 0⟩).1 0 =
    byteAt (Inode.write (Inode.write (Inode.new ⟨0, 0⟩) 4096 [2] ⟨3, 0⟩).1 0 [1] ⟨4, 0⟩).1 0 :=
  c8_disjoint_writes_commute (Inode.new ⟨0, 0⟩) 0 4096 [1] [2] ⟨1, 0⟩ ⟨2, 0⟩ ⟨3, 0⟩ ⟨4, 0⟩
    (by decide) (by decide) (by decide) 0

/-- Claim C10: a successful write leaves every stored byte outside its byte
range unchanged, and any read of a byte range disjoint from the write's
that succeeded before the write still succeeds afterwards with the same
count and the same bytes. -/
theorem c10_write_frame (ino : Inode) (offset : Nat) (data : List Nat) (now : Timespec)
    (s : Inode) (r : Nat) (heq : Inode.write ino offset data now = (s, some r))
    (o2 L2 : Nat) (hdisj : offset + data.length ≤ o2 ∨ o2 + L2 ≤ offset)
    (buf : Nat → Nat) :
    (∀ addr v, (addr < offset ∨ offset + data.length ≤ addr) →
       byteAt ino addr = some v → byteAt s addr = some v) ∧
    (∀ buf1 r1, Inode.read ino o2 L2 buf = some (buf1, r1) →
       ∃ buf2, Inode.read s o2 L2 buf = some (buf2, r1) ∧
         ∀ k, k < L2 → buf2 k = buf1 k) := by
  have hchar := write_byteAt ino offset data now s r heq
  have hpart1 : ∀ addr v, (addr < offset ∨ offset + data.length ≤ addr) →
      byteAt ino addr = some v → byteAt s addr = some v := by
    intro addr v hout hv
    have hc := hchar addr
    by_cases hreg : PAGE_SIZE * (offset / PAGE_SIZE) ≤ addr ∧
        addr < PAGE_SIZE * (offset / PAGE_SIZE +
          ceil_div (offset % PAGE_SIZE + data.length) PAGE_SIZE)
    · rw [if_pos hreg] at hc
      rw [if_neg (by omega : ¬ (offset ≤ addr ∧ addr < offset + data.length))] at hc
      rw [hv] at hc
      simpa using hc
    · rw [if_neg hreg] at hc
      rw [hc, hv]
  refine ⟨hpart1, ?_⟩
  intro buf1 r1 hr
  have hpre : (Inode.read ino o2 L2 buf).isSome = true := by rw [hr]; rfl
  rw [read_isSome_iff] at hpre
  have hpost : (Inode.read s o2 L2 buf).isSome = true := by
    rw [read_isSome_iff]
    intro j hj
    exact ⟨(hpre j hj).1,
      write_preserves_alloc ino offset data now s r heq _ (hpre j hj).2⟩
  obtain ⟨⟨buf2, r2⟩, hr2⟩ := Option.isSome_iff_exists.mp hpost
  obtain ⟨hr2len, hb2⟩ := read_spec _ _ _ _ _ _ hr2
  obtain ⟨hr1len, hb1⟩ := read_spec _ _ _ _ _ _ hr
  refine ⟨buf2, by rw [hr2, hr2len, hr1len], ?_⟩
  intro k hk
  have h1 := hb1 k hk
  have h2 := hb2 k hk
  have hs2 : byteAt s (o2 + k) = some (buf1 k) :=
    hpart1 (o2 + k) (buf1 k) (by omega) h1.symm
  rw [hs2] at h2
  exact Option.some.inj h2

/-- Claim C10, witness at a concrete input: write byte 5 at offset 0, then
write byte 9 at offset 1; the read of byte range `[0, 1)` is unaffected. -/
theorem c10_write_frame_witness :
    (∀ addr v, (addr < 1 ∨ 1 + ([(9 : Nat)]).length ≤ addr) →
       byteAt (Inode.write (Inode.new ⟨0, 0⟩) 0 [5] ⟨1, 0⟩).1 addr = some v →
       byteAt (Inode.write (Inode.write (Inode.new ⟨0, 0⟩) 0 [5] ⟨1, 0⟩).1
         1 [9] ⟨2, 0⟩).1 addr = some v) ∧
    (∀ buf1 r1, Inode.read (Inode.write (Inode.new ⟨0, 0⟩) 0 [5] ⟨1, 0⟩).1 0 1
        (fun _ => 0) = some (buf1, r1) →
       ∃ buf2, Inode.read (Inode.write (Inode.write (Inode.new ⟨0, 0⟩) 0 [5] ⟨1, 0⟩).1
           1 [9] ⟨2, 0⟩).1 0 1 (fun _ => 0) = some (buf2, r1) ∧
         ∀ k, k < 1 → buf2 k = buf1 k) :=
  c10_write_frame _ 1 [9] ⟨2, 0⟩ _ 1 (Prod.ext rfl (by decide)) 0 1
    (Or.inr (by decide)) (fun _ => 0)
